import Mathlib

/-!
Shallow embedding of the circus-rs stabilizer-tableau simulator.

The embedding follows `src/state.rs` (the `State` implementation re-exported by
the crate; `src/lib.rs` contains a textually identical duplicate of the same
tableau engine whose `measure` returns the same byte codes 0..3 produced by the
`Measurement` wrapper of `src/measurement.rs`) and the gate transforms in
`src/gate/hadamard.rs`, `src/gate/cnot.rs`, `src/gate/phase.rs`.

Representation choices:
* The two `(2n+1) x ceil-words` bit matrices `x`, `z` are total functions
  `Nat → Nat → Nat` (row, 32-bit-addressed storage word); the phase vector `r`
  is `Nat → Int` (the Rust field is `i32`; all values stay tiny).  Every row
  operation mutates exactly the entries the Rust loops write, guarded by
  `over32` exactly as the loops are.
* Rust `u64` words only ever undergo `&`, `^`, `=` here, which never overflow,
  so plain `Nat` with `&&&`/`^^^` is an exact model.  The bitwise complement
  `!w` applied to a `u64` in `clifford` is modelled by `not64`, xor with
  `2^64 - 1`; every complemented operand is `word &&& 2^l` with `l < 32`,
  hence `< 2^64`, so this is the exact two's-complement behaviour.
* Rust `%` on `i32` is truncated remainder, i.e. `Int.tmod`.
* The one external collaborator, `rand::random::<i32>()` drawn in the
  indeterminate measurement branch, is passed in as an explicit `Int`
  parameter `v`; the code then computes `2 * (v % 2)`.
-/

namespace Circus

/-- Power-of-two lookup table `PW` of `src/lib.rs` (`PW[l] = 2^l`; the Rust
array has 32 entries and every use except `PW[g]` in `ket` indexes it with
`_ & 31`). -/
def PW (l : Nat) : Nat := 2 ^ l

/-- Bitwise complement of a `u64` value, as `!w` computes in Rust
(for `w < 2^64`, xor with `2^64 - 1` is the two's-complement `!`). -/
def not64 (w : Nat) : Nat := w ^^^ (2 ^ 64 - 1)

/-- The tableau of `src/state.rs::State`: qubit count `n`, word count per row
`over32 = (n >> 5) + 1`, x/z bit matrices (row, word) and phase vector. -/
@[ext]
structure State where
  n : Nat
  over32 : Nat
  x : Nat → Nat → Nat
  z : Nat → Nat → Nat
  r : Nat → Int

/-- `State::new(n)`: destabilizer row `i` gets the single X bit of qubit `i`,
stabilizer row `n + j` the single Z bit of qubit `j`, everything else zero. -/
def State.new (n : Nat) : State where
  n := n
  over32 := n / 32 + 1
  x := fun i j => if i < n ∧ j = i / 32 then PW (i % 32) else 0
  z := fun i j => if n ≤ i ∧ i < 2 * n ∧ j = (i - n) / 32 then PW ((i - n) % 32) else 0
  r := fun _ => 0

/-- `State::rowcopy(i, k)`: words `j < over32` of row `i` and its phase are
overwritten with row `k`'s. -/
def rowcopy (s : State) (i k : Nat) : State :=
  { s with
    x := fun a j => if a = i ∧ j < s.over32 then s.x k j else s.x a j
    z := fun a j => if a = i ∧ j < s.over32 then s.z k j else s.z a j
    r := fun a => if a = i then s.r k else s.r a }

/-- `State::rowswap(i, k)`: three `rowcopy`s through the scratch row `2n`. -/
def rowswap (s : State) (i k : Nat) : State :=
  rowcopy (rowcopy (rowcopy s (2 * s.n) k) k i) i (2 * s.n)

/-- `State::rowset(i, b)`: zero row `i` (words `< over32`) and its phase, then
set the single X bit of qubit `b` if `b < n`, else the single Z bit of qubit
`b - n`. -/
def rowset (s : State) (i b : Nat) : State :=
  { s with
    x := fun a j =>
      if a = i then
        if b < s.n ∧ j = b / 32 then PW (b % 32)
        else if j < s.over32 then 0 else s.x a j
      else s.x a j
    z := fun a j =>
      if a = i then
        if ¬ b < s.n ∧ j = (b - s.n) / 32 then PW ((b - s.n) % 32)
        else if j < s.over32 then 0 else s.z a j
      else s.z a j
    r := fun a => if a = i then 0 else s.r a }

/-- The accumulation loop of `State::clifford(i, k)`, exactly as the Rust
nests it: the outer test is `(x[k] & pw) > 0 && (!(z[k] & pw)) > 0` (the `!`
is the bitwise complement of the whole masked word), and the `Y` and `Z`
branches sit inside that outer `X` branch, each again using `(!(w & pw)) > 0`
complements. -/
def cliffordE (s : State) (i k : Nat) : Int :=
  (List.range s.over32).foldl (fun e j =>
    (List.range 32).foldl (fun e l =>
      let pw := PW l
      if 0 < s.x k j &&& pw ∧ 0 < not64 (s.z k j &&& pw) then
        let e1 := if 0 < s.x i j &&& pw ∧ 0 < s.z i j &&& pw then e + 1 else e
        let e2 := if 0 < not64 (s.x i j &&& pw) ∧ 0 < s.z i j &&& pw then e1 - 1 else e1
        let e3 :=
          if 0 < s.x k j &&& pw ∧ 0 < s.z k j &&& pw then
            let f1 := if 0 < not64 (s.x i j &&& pw) ∧ 0 < s.z i j &&& pw then e2 + 1 else e2
            if 0 < s.x i j &&& pw ∧ 0 < not64 (s.z i j &&& pw) then f1 - 1 else f1
          else e2
        if 0 < not64 (s.x k j &&& pw) ∧ 0 < s.z k j &&& pw then
          let g1 := if 0 < s.x i j &&& pw ∧ 0 < not64 (s.z i j &&& pw) then e3 + 1 else e3
          if 0 < s.x i j &&& pw ∧ 0 < s.z i j &&& pw then g1 - 1 else g1
        else e3
      else e) e) 0

/-- `State::clifford(i, k)`: accumulate, add `r[i] + r[k]`, take the truncated
remainder mod 4 and fold a negative result up by 4. -/
def clifford (s : State) (i k : Nat) : Int :=
  let e := Int.tmod (cliffordE s i k + s.r i + s.r k) 4
  if 0 ≤ e then e else e + 4

/-- `State::rowmult(i, k)`: phase of row `i` becomes `clifford(i, k)` (computed
on the untouched state), then the x and z words `j < over32` of row `i` are
xored with row `k`'s. -/
def rowmult (s : State) (i k : Nat) : State :=
  let c := clifford s i k
  { s with
    x := fun a j => if a = i ∧ j < s.over32 then s.x a j ^^^ s.x k j else s.x a j
    z := fun a j => if a = i ∧ j < s.over32 then s.z a j ^^^ s.z k j else s.z a j
    r := fun a => if a = i then c else s.r a }

/-- `HadamardGate::apply` (`src/gate/hadamard.rs`): for every generator row,
swap the x and z bits at the target position (word `b5 = target >> 5`, mask
`pw = 2^(target & 31)`), then flip the phase by `+2 (mod 4)` when both bits of
the swapped row are set. -/
def hadamard (s : State) (target : Nat) : State :=
  let b5 := target / 32
  let pw := PW (target % 32)
  { s with
    x := fun i j =>
      if i < 2 * s.n ∧ j = b5 then s.x i j ^^^ ((s.x i j ^^^ s.z i j) &&& pw) else s.x i j
    z := fun i j =>
      if i < 2 * s.n ∧ j = b5 then s.z i j ^^^ ((s.z i j ^^^ s.x i j) &&& pw) else s.z i j
    r := fun i =>
      if i < 2 * s.n ∧
          0 < (s.x i b5 ^^^ ((s.x i b5 ^^^ s.z i b5) &&& pw)) &&& pw ∧
          0 < (s.z i b5 ^^^ ((s.z i b5 ^^^ s.x i b5) &&& pw)) &&& pw then
        Int.tmod (s.r i + 2) 4
      else s.r i }

/-- `PhaseGate::apply` (`src/gate/phase.rs`): flip the phase by `+2 (mod 4)`
when both bits at the target are set, then xor the x bit into the z bit. -/
def phaseGate (s : State) (target : Nat) : State :=
  let b5 := target / 32
  let pw := PW (target % 32)
  { s with
    z := fun i j =>
      if i < 2 * s.n ∧ j = b5 then s.z i j ^^^ (s.x i j &&& pw) else s.z i j
    r := fun i =>
      if i < 2 * s.n ∧ 0 < s.x i b5 &&& pw ∧ 0 < s.z i b5 &&& pw then
        Int.tmod (s.r i + 2) 4
      else s.r i }

/-- Word update of one row in `CNotGate::apply`: if the x bit at `target` is
set, xor the mask of `control` into the x word `c5`. -/
def cnotXw (s : State) (b5 c5 pwb pwc : Nat) (i j : Nat) : Nat :=
  if j = c5 ∧ 0 < s.x i b5 &&& pwb then s.x i j ^^^ pwc else s.x i j

/-- Word update of one row in `CNotGate::apply`: if the z bit at `control` is
set, xor the mask of `target` into the z word `b5`. -/
def cnotZw (s : State) (b5 c5 pwb pwc : Nat) (i j : Nat) : Nat :=
  if j = b5 ∧ 0 < s.z i c5 &&& pwc then s.z i j ^^^ pwb else s.z i j

/-- `CNotGate::apply` (`src/gate/cnot.rs`), fields `target`, `control`: per
generator row, the two conditional xors, then the two phase conditions, both
read on the already-updated bit values and applied one after the other. -/
def cnot (s : State) (target control : Nat) : State :=
  let b5 := target / 32
  let c5 := control / 32
  let pwb := PW (target % 32)
  let pwc := PW (control % 32)
  { s with
    x := fun i j => if i < 2 * s.n then cnotXw s b5 c5 pwb pwc i j else s.x i j
    z := fun i j => if i < 2 * s.n then cnotZw s b5 c5 pwb pwc i j else s.z i j
    r := fun i =>
      if i < 2 * s.n then
        let xb := cnotXw s b5 c5 pwb pwc i b5 &&& pwb
        let zc := cnotZw s b5 c5 pwb pwc i c5 &&& pwc
        let xc := cnotXw s b5 c5 pwb pwc i c5 &&& pwc
        let zb := cnotZw s b5 c5 pwb pwc i b5 &&& pwb
        let r1 := if 0 < xb ∧ 0 < zc ∧ 0 < xc ∧ 0 < zb then Int.tmod (s.r i + 2) 4 else s.r i
        if 0 < xb ∧ 0 < zc ∧ ¬ 0 < xc ∧ ¬ 0 < zb then Int.tmod (r1 + 2) 4 else r1
      else s.r i }

/-- Number of indices `a, a+1, ...` (at most `len` of them) scanned before the
first one satisfying `f`; equals `len` when none does.  This is the shape of
the `for a in start..start+len \x7b if hit break; ctr += 1 \x7d` scan loops of
`measure` and `nonzero`. -/
def scanCount (f : Nat → Bool) : Nat → Nat → Nat
  | _, 0 => 0
  | a, len + 1 => if f a then 0 else scanCount f (a + 1) len + 1

/-- Measurement result of `src/measurement.rs`: byte 0/1 for a fixed outcome
bit, 2/3 for a random outcome bit (`src/lib.rs::measure` returns the same
bytes directly). -/
structure Meas where
  byte : Nat
  deriving DecidableEq

/-- `Measurement::fixed(bit)`. -/
def Meas.fixed (bit : Bool) : Meas := ⟨if bit then 1 else 0⟩

/-- `Measurement::random(bit)`. -/
def Meas.mrandom (bit : Bool) : Meas := ⟨(if bit then 1 else 0) + 2⟩

/-- The determinate (`!ran`) branch of `State::measure(target)`: scan the
destabilizers for the first row `m` with the x bit of `target` set (`m = n`
when there is none), copy stabilizer row `m + n` onto the scratch row `2n`,
multiply the stabilizer partner `i + n` of every later destabilizer `i` with
that x bit set into the scratch row, and return `fixed(r[2n] > 0)`. -/
def measureDet (s : State) (target : Nat) : Meas × State :=
  let b5 := target / 32
  let pw := PW (target % 32)
  let m := scanCount (fun a => decide (0 < s.x a b5 &&& pw)) 0 s.n
  let s1 := rowcopy s (2 * s.n) (m + s.n)
  let s2 := (List.range' (m + 1) (s.n - (m + 1))).foldl
    (fun st i => if 0 < st.x i b5 &&& pw then rowmult st (2 * st.n) (i + st.n) else st) s1
  (if 0 < s2.r (2 * s.n) then Meas.fixed true else Meas.fixed false, s2)

/-- `State::measure(target)` with the external draw `rand::random::<i32>()`
passed in as `v`.  The first scan looks for a stabilizer row with the x bit of
`target` set (`p` counts the misses, so the branch is indeterminate iff
`p < n`); the indeterminate branch does the rowcopy/rowset, sets the fresh
phase to `2 * (v % 2)` (truncated `i32` remainder) and multiplies row `p` into
every other row whose x bit at `target` is set; the determinate branch is
`measureDet`. -/
def measure (s : State) (target : Nat) (v : Int) : Meas × State :=
  let b5 := target / 32
  let pw := PW (target % 32)
  let p := scanCount (fun a => decide (0 < s.x (a + s.n) b5 &&& pw)) 0 s.n
  if p < s.n then
    let s1 := rowcopy s p (p + s.n)
    let s2 := rowset s1 (p + s.n) (target + s.n)
    let s3 := { s2 with r := fun a => if a = p + s.n then 2 * Int.tmod v 2 else s2.r a }
    let s4 := (List.range (2 * s.n)).foldl
      (fun st i => if i ≠ p ∧ 0 < st.x i b5 &&& pw then rowmult st i p else st) s3
    (if 0 < s4.r (p + s.n) then Meas.mrandom true else Meas.mrandom false, s4)
  else
    measureDet s target

/-- One column of the X pass of `State::nonzero`.  The running pivot cursor is
`i`; the scan cursor `k` is *not* reset per column in the Rust X pass (it is a
single `let mut k = i;` before the column loop), so it carries over: the scan
adds one miss per row `a ∈ [i, 2n)` before the first hit.  On `k < 2n` the two
rowswaps and the elimination rowmults run and `i` advances. -/
def nonzeroXstep (s : State) (i k j : Nat) : State × Nat × Nat :=
  let j5 := j / 32
  let pw := PW (j % 32)
  let k' := k + scanCount (fun a => decide (0 < s.x a j5 &&& pw)) i (2 * s.n - i)
  if k' < 2 * s.n then
    let s1 := rowswap s i k'
    let s2 := rowswap s1 (i - s.n) (k' - s.n)
    let s3 := (List.range' (i + 1) (2 * s.n - (i + 1))).foldl
      (fun st k2 =>
        if 0 < st.x k2 j5 &&& pw then rowmult (rowmult st k2 i) (i - s.n) (k2 - s.n) else st)
      s2
    (s3, i + 1, k')
  else
    (s, i, k')

/-- One column of the Z pass of `State::nonzero`; here `k` *is* reset to `i`
for every column (`let mut k = i;` inside the loop). -/
def nonzeroZstep (s : State) (i j : Nat) : State × Nat :=
  let j5 := j / 32
  let pw := PW (j % 32)
  let k' := i + scanCount (fun a => decide (0 < s.z a j5 &&& pw)) i (2 * s.n - i)
  if k' < 2 * s.n then
    let s1 := rowswap s i k'
    let s2 := rowswap s1 (i - s.n) (k' - s.n)
    let s3 := (List.range' (i + 1) (2 * s.n - (i + 1))).foldl
      (fun st k2 =>
        if 0 < st.z k2 j5 &&& pw then rowmult (rowmult st k2 i) (i - s.n) (k2 - s.n) else st)
      s2
    (s3, i + 1)
  else
    (s, i)

/-- `State::nonzero` (identical to `State::gaussian_elimination` of
`src/lib.rs`): X pass over all columns, rank `g = i - n` read off, then the
Z pass; returns `g` and the mutated tableau. -/
def nonzero (s : State) : Nat × State :=
  let xres := (List.range s.n).foldl
    (fun (acc : State × Nat × Nat) j => nonzeroXstep acc.1 acc.2.1 acc.2.2 j)
    (s, s.n, s.n)
  let g := xres.2.1 - s.n
  let zres := (List.range s.n).foldl
    (fun (acc : State × Nat) j => nonzeroZstep acc.1 acc.2 j)
    (xres.1, xres.2.1)
  (g, zres.1)

/-- `State::ket_basis_state`: the sign prefix comes from the scratch phase,
bumped by `+1 (mod 4)` for every Y position of the scratch row, and the
bitstring is the scratch row's x bits. -/
def ketBasisState (s : State) : String :=
  let e := (List.range s.n).foldl
    (fun e j =>
      if 0 < s.x (2 * s.n) (j / 32) &&& PW (j % 32) ∧
          0 < s.z (2 * s.n) (j / 32) &&& PW (j % 32) then
        Int.tmod (e + 1) 4
      else e)
    (s.r (2 * s.n))
  let sign := if e = 0 then " +|" else if e = 1 then "+i|" else
    if e = 2 then " -|" else if e = 3 then "-i|" else ""
  let bits := (List.range s.n).foldl
    (fun acc j => acc ++ (if 0 < s.x (2 * s.n) (j / 32) &&& PW (j % 32) then "1" else "0"))
    sign
  bits ++ ">\n"

/-- `State::ket`: run `nonzero`, print the scratch row as-is (the Rust code
never seeds the scratch row), then walk `t = 0 .. PW[g]-2`, multiplying pivot
stabilizer `n + i` into the scratch row for every bit `i` of `t ^ (t+1)` and
printing the scratch row after each step. -/
def ket (s : State) : String × State :=
  let res := nonzero s
  let first := ketBasisState res.2
  let walk := (List.range (PW res.1 - 1)).foldl
    (fun (acc : String × State) t =>
      let t2 := t ^^^ (t + 1)
      let st := (List.range res.1).foldl
        (fun st i => if 0 < t2 &&& PW i then rowmult st (2 * st.n) (st.n + i) else st)
        acc.2
      (acc.1 ++ ketBasisState st, st))
    (first, res.2)
  walk

/-- Phase contribution table as the specification states it, for the product
"row `k` into row `i`": with `(kx, kz)` the bit pair of row `k`'s operator and
`(ix, iz)` that of row `i`'s at one qubit position, XY=iZ, YZ=iX and ZX=iY
contribute `+1`, the reverse products XZ, ZY, YX contribute `-1`, and identity
or equal/absent operators contribute `0`. -/
def pauliPhase : Bool → Bool → Bool → Bool → Int
  | true, false, true, true => 1
  | true, true, false, true => 1
  | false, true, true, false => 1
  | true, false, false, true => -1
  | false, true, true, true => -1
  | true, true, true, false => -1
  | _, _, _, _ => 0

/-- The phase-resolution function as the specification describes `clifford`:
accumulate `pauliPhase` over every qubit position, add `r[i] + r[k]`, reduce
mod 4 and fold to a non-negative representative. -/
def cliffordSpec (s : State) (i k : Nat) : Int :=
  let e := (List.range s.n).foldl
    (fun e j =>
      e + pauliPhase ((s.x k (j / 32)).testBit (j % 32)) ((s.z k (j / 32)).testBit (j % 32))
        ((s.x i (j / 32)).testBit (j % 32)) ((s.z i (j / 32)).testBit (j % 32)))
    0
  let e2 := Int.tmod (e + s.r i + s.r k) 4
  if 0 ≤ e2 then e2 else e2 + 4

/-- The determinate branch of `measure` exactly as the specification sentence
words it: find the first destabilizer row `m` with the x bit of `target` set,
copy *row `m`* into the scratch row, multiply the stabilizer partner of every
later matching destabilizer into the scratch row, and return bit 1 iff the
scratch row's final phase is nonzero.  (Row multiplication is the tableau's
`rowmult` primitive.) -/
def measureDetClaim (s : State) (target : Nat) : Meas × State :=
  let b5 := target / 32
  let pw := PW (target % 32)
  let m := scanCount (fun a => decide (0 < s.x a b5 &&& pw)) 0 s.n
  let s1 := rowcopy s (2 * s.n) m
  let s2 := (List.range' (m + 1) (s.n - (m + 1))).foldl
    (fun st i => if 0 < st.x i b5 &&& pw then rowmult st (2 * st.n) (i + st.n) else st) s1
  (Meas.fixed (decide (s2.r (2 * s.n) ≠ 0)), s2)

/-- The determinate branch of `measure` with the two corrections the code
forces: the row copied into the scratch row is the *stabilizer* row `m + n`
paired with the first matching destabilizer `m`, not row `m` itself, and the
returned bit is 1 iff the scratch row's final phase is *positive* — the code
compares with `> 0`, and a reachable scratch phase can be the negative value
-2, where "nonzero" and "positive" differ.  The rest is as the specification
words it (determinacy fixed). -/
def measureDetAmended (s : State) (target : Nat) : Meas × State :=
  let b5 := target / 32
  let pw := PW (target % 32)
  let m := scanCount (fun a => decide (0 < s.x a b5 &&& pw)) 0 s.n
  let s1 := rowcopy s (2 * s.n) (m + s.n)
  let s2 := (List.range' (m + 1) (s.n - (m + 1))).foldl
    (fun st i => if 0 < st.x i b5 &&& pw then rowmult st (2 * st.n) (i + st.n) else st) s1
  (Meas.fixed (decide (0 < s2.r (2 * s.n))), s2)

/-- The Bell-pair scenario of the specification: `new(2)`, `hadamard(0)`,
`cnot(0, 1)` (the crate's `cnot(target, control)` entry point builds
`CNotGate \x7b target: 0, control: 1 \x7d`). -/
def bellState : State := cnot (hadamard (State.new 2) 0) 0 1

/-- The reachable tableau `new(2)`; `hadamard(0)`; `hadamard(1)` (stabilizers
X0, X1), the input of the reduction-idempotence counterexample. -/
def hhState : State := hadamard (hadamard (State.new 2) 0) 1

/-- Tableau after `new(1)`; `hadamard(0)`; `measure(0)` where the external
`rand::random::<i32>()` draw returned `-1`: the fresh stabilizer row keeps
phase `2 * ((-1) % 2) = -2`. -/
def negDrawState : State := (measure (hadamard (State.new 1) 0) 0 (-1)).2

/-- Reachable tableau with a generator row `Y` carrying phase `-2`: continue
from `negDrawState` with `hadamard(0)` and then the phase gate on qubit 0. -/
def yNegState : State := phaseGate (hadamard negDrawState 0) 0

/-- Reachable tableau `new(1)`; `phase(0)`; `phase(0)`: destabilizer row is X
with phase 2, stabilizer row is Z with phase 0. -/
def ssState : State := phaseGate (phaseGate (State.new 1) 0) 0

/-! Helper lemmas about the row algebra. -/

theorem pos_land_pw_iff (w m : Nat) : 0 < w &&& PW m ↔ w.testBit m := by
  rw [PW, Nat.and_two_pow]
  cases h : w.testBit m <;> simp

theorem rowcopy_self (s : State) (i : Nat) : rowcopy s i i = s := by
  ext
  · rfl
  · rfl
  · rename_i a j
    by_cases h : a = i
    · subst h
      by_cases hj : j < s.over32 <;> simp [rowcopy, hj]
    · simp [rowcopy, h]
  · rename_i a j
    by_cases h : a = i
    · subst h
      by_cases hj : j < s.over32 <;> simp [rowcopy, hj]
    · simp [rowcopy, h]
  · rename_i a
    by_cases h : a = i <;> simp [rowcopy, h]

theorem rowcopy_x_ne (s : State) (i k a j : Nat) (h : a ≠ i) :
    (rowcopy s i k).x a j = s.x a j := by
  simp [rowcopy, h]

theorem rowcopy_z_ne (s : State) (i k a j : Nat) (h : a ≠ i) :
    (rowcopy s i k).z a j = s.z a j := by
  simp [rowcopy, h]

theorem rowcopy_r_ne (s : State) (i k a : Nat) (h : a ≠ i) :
    (rowcopy s i k).r a = s.r a := by
  simp [rowcopy, h]

theorem rowmult_x_ne (s : State) (i k a j : Nat) (h : a ≠ i) :
    (rowmult s i k).x a j = s.x a j := by
  simp [rowmult, h]

theorem rowmult_z_ne (s : State) (i k a j : Nat) (h : a ≠ i) :
    (rowmult s i k).z a j = s.z a j := by
  simp [rowmult, h]

theorem rowmult_r_ne (s : State) (i k a : Nat) (h : a ≠ i) :
    (rowmult s i k).r a = s.r a := by
  simp [rowmult, h]

theorem rowmult_r_self (s : State) (i k : Nat) :
    (rowmult s i k).r i = clifford s i k := by
  simp [rowmult]

theorem tmod_four_bounds (a : Int) : -4 < Int.tmod a 4 ∧ Int.tmod a 4 < 4 := by
  cases a with
  | ofNat m =>
    have h0 : (0 : Int) ≤ Int.tmod (Int.ofNat m) 4 := Int.tmod_nonneg _ (Int.ofNat_nonneg m)
    have h1 : Int.tmod (Int.ofNat m) 4 < 4 := Int.tmod_lt_of_pos _ (by norm_num)
    omega
  | negSucc m =>
    have h2 : Int.tmod (Int.negSucc m) 4 = -((m.succ % 4 : Nat) : Int) := rfl
    have h3 : m.succ % 4 < 4 := Nat.mod_lt _ (by norm_num)
    rw [h2]
    omega

theorem clifford_bounds (s : State) (i k : Nat) :
    0 ≤ clifford s i k ∧ clifford s i k < 4 := by
  unfold clifford
  have h := tmod_four_bounds (cliffordE s i k + s.r i + s.r k)
  by_cases h0 : 0 ≤ Int.tmod (cliffordE s i k + s.r i + s.r k) 4 <;> simp [h0] <;> omega

theorem clifford_nonneg (s : State) (i k : Nat) : 0 ≤ clifford s i k :=
  (clifford_bounds s i k).1


theorem scanCount_eq_of_all_false (f : Nat → Bool) (start len : Nat)
    (h : ∀ a, start ≤ a → a < start + len → f a = false) :
    scanCount f start len = len := by
  induction len generalizing start with
  | zero => rfl
  | succ m ih =>
    have h0 : f start = false := h start (Nat.le_refl _) (by omega)
    simp only [scanCount, h0, Bool.false_eq_true, if_false]
    have := ih (start + 1) (fun a ha hb => h a (by omega) (by omega))
    omega

theorem xor_pw_land_pw_of_ne (w mQ m : Nat) (h : mQ ≠ m) :
    (w ^^^ PW mQ) &&& PW m = w &&& PW m := by
  apply Nat.eq_of_testBit_eq
  intro t
  simp only [Nat.testBit_and, Nat.testBit_xor]
  by_cases ht : t = m
  · subst ht
    rw [PW, Nat.testBit_two_pow_of_ne h]
    simp
  · have hm : (PW m).testBit t = false := by
      rw [PW]
      exact Nat.testBit_two_pow_of_ne (fun hmt => ht hmt.symm)
    simp [hm]

theorem pos_land_xor_pw_self (w m : Nat) :
    0 < (w ^^^ PW m) &&& PW m ↔ ¬ 0 < w &&& PW m := by
  rw [pos_land_pw_iff, pos_land_pw_iff]
  rw [Nat.testBit_xor, PW, Nat.testBit_two_pow_self]
  cases h : w.testBit m <;> simp

theorem fixed_pos_eq_decide (R : Int) :
    (if 0 < R then Meas.fixed true else Meas.fixed false) = Meas.fixed (decide (0 < R)) := by
  by_cases h0 : 0 < R <;> simp [h0]

theorem measure_det_of_no_stab (s : State) (target : Nat) (v : Int)
    (hdet : ∀ a, a < s.n → s.x (a + s.n) (target / 32) &&& PW (target % 32) = 0) :
    measure s target v = measureDet s target := by
  have hp : scanCount
      (fun a => decide (0 < s.x (a + s.n) (target / 32) &&& PW (target % 32))) 0 s.n = s.n := by
    apply scanCount_eq_of_all_false
    intro a ha hb
    have h0 := hdet a (by omega)
    simp [h0]
  simp only [measure]
  rw [hp]
  rw [if_neg (Nat.lt_irrefl s.n)]

theorem detFold_n (b5 pw : Nat) (L : List Nat) (st : State) :
    (L.foldl (fun st i =>
      if 0 < st.x i b5 &&& pw then rowmult st (2 * st.n) (i + st.n) else st) st).n = st.n := by
  induction L generalizing st with
  | nil => rfl
  | cons a L ih =>
    simp only [List.foldl_cons]
    rw [ih]
    by_cases h : 0 < st.x a b5 &&& pw
    · simp [h, rowmult]
    · simp [h]

theorem detFold_frame (b5 pw : Nat) (L : List Nat) (N : Nat) :
    ∀ st : State, st.n = N → ∀ a, a ≠ 2 * N →
      (∀ j, (L.foldl (fun st i =>
          if 0 < st.x i b5 &&& pw then rowmult st (2 * st.n) (i + st.n) else st) st).x a j
        = st.x a j) ∧
      (∀ j, (L.foldl (fun st i =>
          if 0 < st.x i b5 &&& pw then rowmult st (2 * st.n) (i + st.n) else st) st).z a j
        = st.z a j) ∧
      (L.foldl (fun st i =>
          if 0 < st.x i b5 &&& pw then rowmult st (2 * st.n) (i + st.n) else st) st).r a
        = st.r a := by
  induction L with
  | nil => exact fun st hn a ha => ⟨fun j => rfl, fun j => rfl, rfl⟩
  | cons c L ih =>
    intro st hn a ha
    simp only [List.foldl_cons]
    by_cases h : 0 < st.x c b5 &&& pw
    · rw [if_pos h]
      have hn2 : (rowmult st (2 * st.n) (c + st.n)).n = N := hn
      have step := ih (rowmult st (2 * st.n) (c + st.n)) hn2 a ha
      have hne : a ≠ 2 * st.n := by rw [hn]; exact ha
      exact ⟨fun j => (step.1 j).trans (rowmult_x_ne _ _ _ _ _ hne),
        fun j => (step.2.1 j).trans (rowmult_z_ne _ _ _ _ _ hne),
        step.2.2.trans (rowmult_r_ne _ _ _ _ hne)⟩
    · rw [if_neg h]
      exact ih st hn a ha

theorem detFold_r_scratch_nonneg (b5 pw : Nat) (L : List Nat) (N : Nat) :
    ∀ st : State, st.n = N → 0 ≤ st.r (2 * N) →
      0 ≤ (L.foldl (fun st i =>
        if 0 < st.x i b5 &&& pw then rowmult st (2 * st.n) (i + st.n) else st) st).r (2 * N) := by
  induction L with
  | nil => exact fun st hn h => h
  | cons c L ih =>
    intro st hn h
    simp only [List.foldl_cons]
    by_cases hc : 0 < st.x c b5 &&& pw
    · rw [if_pos hc]
      refine ih (rowmult st (2 * st.n) (c + st.n)) hn ?_
      have h2 : 2 * N = 2 * st.n := by rw [hn]
      rw [h2, rowmult_r_self]
      exact clifford_nonneg _ _ _
    · rw [if_neg hc]
      exact ih st hn h

theorem hadamard_word_restore (A B pw : Nat) :
    (A ^^^ ((A ^^^ B) &&& pw)) ^^^
      (((A ^^^ ((A ^^^ B) &&& pw)) ^^^ (B ^^^ ((B ^^^ A) &&& pw))) &&& pw) = A := by
  apply Nat.eq_of_testBit_eq
  intro m
  simp only [Nat.testBit_xor, Nat.testBit_and]
  cases hA : A.testBit m <;> cases hB : B.testBit m <;> cases hp : pw.testBit m <;> rfl

theorem hadamard_word_swap_mask (A B pw : Nat) :
    (A ^^^ ((A ^^^ B) &&& pw)) &&& pw = B &&& pw := by
  apply Nat.eq_of_testBit_eq
  intro m
  simp only [Nat.testBit_xor, Nat.testBit_and]
  cases hA : A.testBit m <;> cases hB : B.testBit m <;> cases hp : pw.testBit m <;> rfl

theorem tmod_double_flip (R : Int) (h0 : 0 ≤ R) (h4 : R < 4) :
    Int.tmod (Int.tmod (R + 2) 4 + 2) 4 = R := by
  have e1 : Int.tmod (R + 2) 4 = (R + 2) % 4 := Int.tmod_eq_emod (by omega) (by norm_num)
  rw [e1]
  have e2 : Int.tmod ((R + 2) % 4 + 2) 4 = ((R + 2) % 4 + 2) % 4 :=
    Int.tmod_eq_emod (by omega) (by norm_num)
  rw [e2]
  omega

/-! Claim theorems. -/

/-- C3: in the CNOT transform with `first ≠ second` (the fields `target` and
`control` of `CNotGate`), every generator row's phase is bumped by `+2 mod 4`
exactly when, on the bit values read *before* the two xor updates,
(X@first ∧ Z@second ∧ X@second ∧ Z@first) or
(X@first ∧ Z@second ∧ ¬X@second ∧ ¬Z@first) holds — the code reads the
updated bits, but since the updates flip X@second and Z@first exactly when
X@first resp. Z@second are set, the two post-update conditions swap and their
disjunction equals the pre-update disjunction. -/
theorem cnot_phase_flip_rule (s : State) (target control : Nat) (hne : target ≠ control)
    (i : Nat) (hi : i < 2 * s.n) :
    (cnot s target control).r i =
      if (0 < s.x i (target / 32) &&& PW (target % 32) ∧
          0 < s.z i (control / 32) &&& PW (control % 32) ∧
          0 < s.x i (control / 32) &&& PW (control % 32) ∧
          0 < s.z i (target / 32) &&& PW (target % 32)) ∨
         (0 < s.x i (target / 32) &&& PW (target % 32) ∧
          0 < s.z i (control / 32) &&& PW (control % 32) ∧
          ¬ 0 < s.x i (control / 32) &&& PW (control % 32) ∧
          ¬ 0 < s.z i (target / 32) &&& PW (target % 32)) then
        Int.tmod (s.r i + 2) 4
      else s.r i := by
  have hdm : target / 32 = control / 32 → target % 32 ≠ control % 32 := by
    intro h1 h2
    apply hne
    have e1 := Nat.div_add_mod target 32
    have e2 := Nat.div_add_mod control 32
    omega
  have exb : cnotXw s (target / 32) (control / 32) (PW (target % 32)) (PW (control % 32))
      i (target / 32) &&& PW (target % 32) = s.x i (target / 32) &&& PW (target % 32) := by
    unfold cnotXw
    by_cases hb : target / 32 = control / 32
    · by_cases hx : 0 < s.x i (target / 32) &&& PW (target % 32)
      · rw [if_pos ⟨hb, hx⟩]
        exact xor_pw_land_pw_of_ne _ _ _ (fun h => hdm hb h.symm)
      · rw [if_neg (fun hc => hx hc.2)]
    · rw [if_neg (fun hc => hb hc.1)]
  have ezc : cnotZw s (target / 32) (control / 32) (PW (target % 32)) (PW (control % 32))
      i (control / 32) &&& PW (control % 32) = s.z i (control / 32) &&& PW (control % 32) := by
    unfold cnotZw
    by_cases hb : control / 32 = target / 32
    · by_cases hz : 0 < s.z i (control / 32) &&& PW (control % 32)
      · rw [if_pos ⟨hb, hz⟩]
        exact xor_pw_land_pw_of_ne _ _ _ (hdm hb.symm)
      · rw [if_neg (fun hc => hz hc.2)]
    · rw [if_neg (fun hc => hb hc.1)]
  simp only [cnot]
  rw [if_pos hi]
  by_cases hxb : 0 < s.x i (target / 32) &&& PW (target % 32) <;>
    by_cases hzc : 0 < s.z i (control / 32) &&& PW (control % 32)
  · have pxc : (0 < cnotXw s (target / 32) (control / 32) (PW (target % 32))
        (PW (control % 32)) i (control / 32) &&& PW (control % 32)) ↔
        ¬ 0 < s.x i (control / 32) &&& PW (control % 32) := by
      unfold cnotXw
      rw [if_pos ⟨rfl, hxb⟩]
      exact pos_land_xor_pw_self _ _
    have pzb : (0 < cnotZw s (target / 32) (control / 32) (PW (target % 32))
        (PW (control % 32)) i (target / 32) &&& PW (target % 32)) ↔
        ¬ 0 < s.z i (target / 32) &&& PW (target % 32) := by
      unfold cnotZw
      rw [if_pos ⟨rfl, hzc⟩]
      exact pos_land_xor_pw_self _ _
    by_cases hxc : 0 < s.x i (control / 32) &&& PW (control % 32) <;>
      by_cases hzb : 0 < s.z i (target / 32) &&& PW (target % 32) <;>
      simp [exb, ezc, pxc, pzb, hxb, hzc, hxc, hzb]
  · have pxc : (0 < cnotXw s (target / 32) (control / 32) (PW (target % 32))
        (PW (control % 32)) i (control / 32) &&& PW (control % 32)) ↔
        ¬ 0 < s.x i (control / 32) &&& PW (control % 32) := by
      unfold cnotXw
      rw [if_pos ⟨rfl, hxb⟩]
      exact pos_land_xor_pw_self _ _
    have pzb : cnotZw s (target / 32) (control / 32) (PW (target % 32))
        (PW (control % 32)) i (target / 32) &&& PW (target % 32)
        = s.z i (target / 32) &&& PW (target % 32) := by
      unfold cnotZw
      rw [if_neg (fun hc => hzc hc.2)]
    by_cases hxc : 0 < s.x i (control / 32) &&& PW (control % 32) <;>
      by_cases hzb : 0 < s.z i (target / 32) &&& PW (target % 32) <;>
      simp [exb, ezc, pxc, pzb, hxb, hzc, hxc, hzb]
  · have pxc : cnotXw s (target / 32) (control / 32) (PW (target % 32))
        (PW (control % 32)) i (control / 32) &&& PW (control % 32)
        = s.x i (control / 32) &&& PW (control % 32) := by
      unfold cnotXw
      rw [if_neg (fun hc => hxb hc.2)]
    have pzb : (0 < cnotZw s (target / 32) (control / 32) (PW (target % 32))
        (PW (control % 32)) i (target / 32) &&& PW (target % 32)) ↔
        ¬ 0 < s.z i (target / 32) &&& PW (target % 32) := by
      unfold cnotZw
      rw [if_pos ⟨rfl, hzc⟩]
      exact pos_land_xor_pw_self _ _
    by_cases hxc : 0 < s.x i (control / 32) &&& PW (control % 32) <;>
      by_cases hzb : 0 < s.z i (target / 32) &&& PW (target % 32) <;>
      simp [exb, ezc, pxc, pzb, hxb, hzc, hxc, hzb]
  · have pxc : cnotXw s (target / 32) (control / 32) (PW (target % 32))
        (PW (control % 32)) i (control / 32) &&& PW (control % 32)
        = s.x i (control / 32) &&& PW (control % 32) := by
      unfold cnotXw
      rw [if_neg (fun hc => hxb hc.2)]
    have pzb : cnotZw s (target / 32) (control / 32) (PW (target % 32))
        (PW (control % 32)) i (target / 32) &&& PW (target % 32)
        = s.z i (target / 32) &&& PW (target % 32) := by
      unfold cnotZw
      rw [if_neg (fun hc => hzc hc.2)]
    by_cases hxc : 0 < s.x i (control / 32) &&& PW (control % 32) <;>
      by_cases hzb : 0 < s.z i (target / 32) &&& PW (target % 32) <;>
      simp [exb, ezc, pxc, pzb, hxb, hzc, hxc, hzb]

/-- Closed witness for `cnot_phase_flip_rule`: the fresh two-qubit tableau,
`cnot(0, 1)`, stabilizer row 2. -/
theorem cnot_phase_flip_rule_witness :
    (cnot (State.new 2) 0 1).r 2 =
      if (0 < (State.new 2).x 2 (0 / 32) &&& PW (0 % 32) ∧
          0 < (State.new 2).z 2 (1 / 32) &&& PW (1 % 32) ∧
          0 < (State.new 2).x 2 (1 / 32) &&& PW (1 % 32) ∧
          0 < (State.new 2).z 2 (0 / 32) &&& PW (0 % 32)) ∨
         (0 < (State.new 2).x 2 (0 / 32) &&& PW (0 % 32) ∧
          0 < (State.new 2).z 2 (1 / 32) &&& PW (1 % 32) ∧
          ¬ 0 < (State.new 2).x 2 (1 / 32) &&& PW (1 % 32) ∧
          ¬ 0 < (State.new 2).z 2 (0 / 32) &&& PW (0 % 32)) then
        Int.tmod ((State.new 2).r 2 + 2) 4
      else (State.new 2).r 2 :=
  cnot_phase_flip_rule (State.new 2) 0 1 (by decide) 2 (by decide)

/-- C7 (amended): `hadamard(t)` applied twice restores the tableau exactly for
every qubit `t < n` and every tableau whose generator phases lie in `[0, 4)`
(in particular all phases in the committed set 0 or 2); reachable tableaus can
leave that range only through the signed random draw in `measure`, as the
separate counterexample shows. -/
theorem hadamard_involution (s : State) (t : Nat) (_ht : t < s.n)
    (hr : ∀ i, i < 2 * s.n → 0 ≤ s.r i ∧ s.r i < 4) :
    hadamard (hadamard s t) t = s := by
  apply State.ext
  · rfl
  · rfl
  · funext i j
    by_cases hij : i < 2 * s.n ∧ j = t / 32
    · obtain ⟨hi, hj⟩ := hij
      subst hj
      simp [hadamard, hi, hadamard_word_restore]
    · simp [hadamard, hij]
  · funext i j
    by_cases hij : i < 2 * s.n ∧ j = t / 32
    · obtain ⟨hi, hj⟩ := hij
      subst hj
      simp [hadamard, hi, hadamard_word_restore]
    · simp [hadamard, hij]
  · funext i
    by_cases hi : i < 2 * s.n
    · by_cases hA : 0 < s.x i (t / 32) &&& PW (t % 32) <;>
        by_cases hB : 0 < s.z i (t / 32) &&& PW (t % 32) <;>
        simp [hadamard, hi, hA, hB, hadamard_word_swap_mask]
      exact tmod_double_flip (s.r i) (hr i hi).1 (hr i hi).2
    · simp [hadamard, hi]

/-- Closed witness for `hadamard_involution` at the reachable tableau
`new(1)`; `phase(0)`; `phase(0)` (phases 2, 0, 0) and qubit 0. -/
theorem hadamard_involution_witness :
    hadamard (hadamard ssState 0) 0 = ssState :=
  hadamard_involution ssState 0 (by decide)
    (fun i hi => by
      have h2 : i < 2 := hi
      have hcases : i = 0 ∨ i = 1 := by omega
      rcases hcases with h | h <;> subst h <;> exact ⟨by decide, by decide⟩)

/-- C1: the phase-resolution function `clifford(i, k)` is claimed to
accumulate the single-qubit Pauli commutation table (XY=iZ, YZ=iX, ZX=iY give
+1, the reversed products -1), add `r[i] + r[k]` and reduce into `[0, 4)`.
On the freshly built one-qubit tableau, row 1 carries Z and row 0 carries X,
so the table demands `clifford(0, 1) = 1` (ZX=iY); the code returns 0: its
complement conditions `(!(w & pw)) > 0` are always true and the Y and Z
branches are nested inside the X branch, so only the (X, Z) pairing ever
contributes. -/
theorem clifford_table_mismatch :
    clifford (State.new 1) 0 1 = 0 ∧ cliffordSpec (State.new 1) 0 1 = 1 := by
  exact ⟨by decide, by decide⟩

/-- C2: after the public sequence `new(1)`, `hadamard(0)`, `measure(0)` in
which the external `rand::random::<i32>()` draw returns -1, the fresh
stabilizer generator row 1 is left with phase `2 * ((-1) % 2) = -2`, which is
neither 0 nor 2 — the committed-phase invariant and the "phase set to exactly
0 or 2 according to the drawn bit" sentence both fail on a negative odd
draw. -/
theorem measure_neg_draw_phase :
    negDrawState.r 1 = -2 ∧ ¬ (negDrawState.r 1 = 0 ∨ negDrawState.r 1 = 2) := by
  exact ⟨by decide, by decide⟩

/-- C4: reduction is not idempotent.  On the reachable tableau with
stabilizers X0, X1 (`new(2)`; `hadamard(0)`; `hadamard(1)`) both calls return
rank 2, but the X pass never resets its scan cursor `k`, so the first call
swaps the two stabilizer/destabilizer pairs and the second call swaps them
back: destabilizer row 0 holds Z1 (z word 2) after the first call and Z0
(z word 1) after the second. -/
theorem reduce_not_idempotent :
    (nonzero hhState).1 = 2 ∧
    (nonzero (nonzero hhState).2).1 = 2 ∧
    (nonzero hhState).2.z 0 0 = 2 ∧
    (nonzero (nonzero hhState).2).2.z 0 0 = 1 := by
  refine ⟨by decide, by decide, by decide, by decide⟩

/-- C5: on the Bell-pair scenario `new(2)`; `hadamard(0)`; `cnot(0,1)` the
claim expects rank 1 and ket lines "00" and "11" with + signs.  The code's
`nonzero` returns 2 (the stale scan cursor `k` fabricates a second pivot) and
`ket` — which never seeds the scratch row — prints the four lines
` +|01>`, ` +|10>`, `+i|01>`, ` +|10>`. -/
theorem bell_reduce_ket :
    (nonzero bellState).1 = 2 ∧
    (ket bellState).1 = " +|01>\n +|10>\n+i|01>\n +|10>\n" := by
  exact ⟨by decide, by decide⟩

/-- C6 counterexample, refuting two parts of the claimed recipe.  First, on
the reachable tableau `new(1)`; `phase(0)`; `phase(0)` (destabilizer X with
phase 2, stabilizer Z with phase 0) the determinate branch of `measure(0)`
returns bit 0, but the claim's "copy row `m` into the scratch row" recipe —
copying the destabilizer row `m` itself — would return bit 1; the code copies
the paired stabilizer row `m + n`.  Second, the claim's "bit 1 if the scratch
row's final phase is nonzero" misreads the code's `> 0` comparison: on the
reachable `negDrawState` a determinate `measure(0)` leaves the scratch row
with the nonzero phase -2 yet returns bit 0. -/
theorem measure_det_claim_counterexample :
    ((measure ssState 0 0).1 = Meas.fixed false ∧
      (measureDetClaim ssState 0).1 = Meas.fixed true) ∧
    ((measure negDrawState 0 0).1 = Meas.fixed false ∧
      (measure negDrawState 0 0).2.r 2 = -2) := by
  exact ⟨⟨by decide, by decide⟩, ⟨by decide, by decide⟩⟩

/-- C7 counterexample: `yNegState` is reachable by public operations
(`new(1)`; `hadamard(0)`; `measure(0)` with draw -1; `hadamard(0)`;
`phase(0)`) and carries a Y row with phase -2; applying `hadamard(0)` twice
turns that phase into 2, so the double application does not restore the
tableau. -/
theorem hadamard_not_involutive_on_reachable :
    (hadamard (hadamard yNegState 0) 0).r 1 = 2 ∧ yNegState.r 1 = -2 := by
  exact ⟨by decide, by decide⟩

/-- C9: `new(0)` is a valid degenerate tableau — zero qubits, all-zero bit
matrices and phases — and `ket()` on it yields exactly the single basis line
` +|>` (empty bitstring, + sign). -/
theorem new_zero_valid_ket :
    (ket (State.new 0)).1 = " +|>\n" ∧ (State.new 0).n = 0 ∧
    (∀ i j, (State.new 0).x i j = 0) ∧ (∀ i j, (State.new 0).z i j = 0) ∧
    (∀ i, (State.new 0).r i = 0) := by
  refine ⟨by decide, rfl, ?_, ?_, fun i => rfl⟩
  · intro i j
    simp [State.new]
  · intro i j
    simp [State.new]

/-- C10: on the zero-qubit tableau, `measure(target)` for every target and
every random draw returns the fixed outcome 0 and leaves the tableau
unchanged: both scans are over an empty range, the row copy is the scratch
row onto itself, and the scratch phase is 0. -/
theorem measure_zero_qubit (target : Nat) (v : Int) :
    measure (State.new 0) target v = (Meas.fixed false, State.new 0) := by
  have h : measure (State.new 0) target v = measureDet (State.new 0) target :=
    measure_det_of_no_stab _ _ _ (fun a ha => absurd ha (Nat.not_lt_zero a))
  rw [h]
  simp only [measureDet]
  have hn : (State.new 0).n = 0 := rfl
  rw [hn]
  simp only [scanCount, Nat.mul_zero, Nat.zero_add, rowcopy_self, Nat.zero_sub, List.range',
    List.foldl_nil]
  have hr : (State.new 0).r 0 = 0 := rfl
  rw [hr]
  simp

/-- C8: when no stabilizer row has the x bit of `target` set (the determinate
case), `measure` mutates nothing but the scratch row `2n` — the bits and
phases of every row other than `2n`, and `n` itself, are unchanged — and the
whole result (outcome and final tableau) is independent of the external
random draw. -/
theorem measure_det_frame (s : State) (target : Nat) (v w : Int)
    (hdet : ∀ a, a < s.n → s.x (a + s.n) (target / 32) &&& PW (target % 32) = 0) :
    measure s target v = measure s target w ∧
    (measure s target v).2.n = s.n ∧
    (∀ a j, a ≠ 2 * s.n → (measure s target v).2.x a j = s.x a j) ∧
    (∀ a j, a ≠ 2 * s.n → (measure s target v).2.z a j = s.z a j) ∧
    (∀ a, a ≠ 2 * s.n → (measure s target v).2.r a = s.r a) := by
  have hv := measure_det_of_no_stab s target v hdet
  have hw := measure_det_of_no_stab s target w hdet
  rw [hv, hw]
  refine ⟨rfl, ?_, ?_, ?_, ?_⟩
  · simp only [measureDet]
    rw [detFold_n]
    rfl
  · intro a j ha
    simp only [measureDet]
    have hf := detFold_frame (target / 32) (PW (target % 32))
      (List.range' (scanCount
        (fun a => decide (0 < s.x a (target / 32) &&& PW (target % 32))) 0 s.n + 1)
        (s.n - (scanCount
          (fun a => decide (0 < s.x a (target / 32) &&& PW (target % 32))) 0 s.n + 1)))
      s.n
      (rowcopy s (2 * s.n) (scanCount
        (fun a => decide (0 < s.x a (target / 32) &&& PW (target % 32))) 0 s.n + s.n))
      rfl a ha
    exact (hf.1 j).trans (rowcopy_x_ne _ _ _ _ _ ha)
  · intro a j ha
    simp only [measureDet]
    have hf := detFold_frame (target / 32) (PW (target % 32))
      (List.range' (scanCount
        (fun a => decide (0 < s.x a (target / 32) &&& PW (target % 32))) 0 s.n + 1)
        (s.n - (scanCount
          (fun a => decide (0 < s.x a (target / 32) &&& PW (target % 32))) 0 s.n + 1)))
      s.n
      (rowcopy s (2 * s.n) (scanCount
        (fun a => decide (0 < s.x a (target / 32) &&& PW (target % 32))) 0 s.n + s.n))
      rfl a ha
    exact (hf.2.1 j).trans (rowcopy_z_ne _ _ _ _ _ ha)
  · intro a ha
    simp only [measureDet]
    have hf := detFold_frame (target / 32) (PW (target % 32))
      (List.range' (scanCount
        (fun a => decide (0 < s.x a (target / 32) &&& PW (target % 32))) 0 s.n + 1)
        (s.n - (scanCount
          (fun a => decide (0 < s.x a (target / 32) &&& PW (target % 32))) 0 s.n + 1)))
      s.n
      (rowcopy s (2 * s.n) (scanCount
        (fun a => decide (0 < s.x a (target / 32) &&& PW (target % 32))) 0 s.n + s.n))
      rfl a ha
    exact hf.2.2.trans (rowcopy_r_ne _ _ _ _ ha)

/-- Closed witness for `measure_det_frame`: on the fresh one-qubit tableau the
stabilizer row carries Z, so measuring qubit 0 is determinate and two
different draws give identical results, and the generator rows keep their
contents. -/
theorem measure_det_frame_witness :
    measure (State.new 1) 0 0 = measure (State.new 1) 0 5 ∧
    (measure (State.new 1) 0 0).2.r 1 = (State.new 1).r 1 := by
  have h := measure_det_frame (State.new 1) 0 0 5 (by decide)
  exact ⟨h.1, h.2.2.2.2 1 (by decide)⟩

/-- C6 (amended): in the determinate case `measure` behaves, on every
tableau, exactly as the amended sentence describes: first destabilizer `m`
with the x bit set, the *stabilizer row `m + n`* copied onto the scratch row,
stabilizer partners of later matching destabilizers multiplied in, result bit
1 iff the final scratch phase is positive, determinacy fixed. -/
theorem measure_det_amended_correct (s : State) (target : Nat) (v : Int)
    (hdet : ∀ a, a < s.n → s.x (a + s.n) (target / 32) &&& PW (target % 32) = 0) :
    measure s target v = measureDetAmended s target := by
  rw [measure_det_of_no_stab s target v hdet]
  simp only [measureDet, measureDetAmended]
  congr 1
  exact fixed_pos_eq_decide _

/-- Closed witness for `measure_det_amended_correct` at the fresh one-qubit
tableau, qubit 0, draw 7. -/
theorem measure_det_amended_witness :
    measure (State.new 1) 0 7 = measureDetAmended (State.new 1) 0 :=
  measure_det_amended_correct (State.new 1) 0 7 (by decide)

end Circus
